import Mathlib

/-!
Verification development for `audio_processor.py` (m8-sample-processor).

The Python program is shallowly embedded here.  Python strings are modelled
as `List Char` (a Python `str` is a sequence of code points); `str.lower()`
is modelled per character by `Char.toLower`, which covers the ASCII case
mapping (Python additionally lowercases non-ASCII letters; no claim in this
development depends on non-ASCII case mapping).  Filesystem state is a list
of existing paths; the external `ffmpeg`/`ffprobe` subprocesses are oracles
supplied as parameters, and each `try/except` outcome of the source is an
explicit boolean success parameter.
-/

namespace AudioProc

/-- `sanitize_name` (audio_processor.py line 10–12):
`name.lower().replace(' ', '_')`.  `str.lower()` is per-character
lowercasing (ASCII mapping modelled); `str.replace(' ', '_')` with
single-character pattern and replacement is exactly a per-character map. -/
def sanitize_name (s : List Char) : List Char :=
  (s.map Char.toLower).map (fun c => if c = ' ' then '_' else c)

/-- The per-character normalisation the spec describes: a space becomes an
underscore, every other character is lowercased.  Used to state C8. -/
def charNorm (c : Char) : Char :=
  if c = ' ' then '_' else c.toLower

/-- Index of the last `'.'` in a name, if any (Python `name.rfind('.')`,
with `-1` rendered as `none`). -/
def rfindDot (name : List Char) : Option Nat :=
  match name.reverse.findIdx? (fun c => c = '.') with
  | none => none
  | some j => some (name.length - 1 - j)

/-- `pathlib.PurePath.stem`: `name[:i]` when `0 < i < len(name) - 1` for
`i = name.rfind('.')`, otherwise the whole name. -/
def stemOf (name : List Char) : List Char :=
  match rfindDot name with
  | none => name
  | some i => if 0 < i ∧ i < name.length - 1 then name.take i else name

/-- `pathlib.PurePath.suffix`: `name[i:]` when `0 < i < len(name) - 1`,
otherwise empty. -/
def suffixOf (name : List Char) : List Char :=
  match rfindDot name with
  | none => []
  | some i => if 0 < i ∧ i < name.length - 1 then name.drop i else []

/-- One entry of the `streams` array in `ffprobe`'s JSON output, restricted
to the keys the program touches plus `channels` (present in real `ffprobe`
output but never read by the code).  `sample_rate` is emitted by `ffprobe`
as a JSON string; an absent key is `none`. -/
structure FFStream where
  codec_type : Option (List Char)
  sample_rate : Option (List Char)
  bits_per_sample : Option Int
  channels : Option Int
deriving DecidableEq, Repr

/-- Outcome of the `ffprobe` subprocess call (audio_processor.py lines
127–143): `exc` covers every raised exception (utility unavailable,
timeout after 5 s, `json.loads` failure on malformed output); `ok` is a
completed subprocess with its exit status and decoded `streams` list. -/
inductive ProbeResult where
  | exc : ProbeResult
  | ok : Int → List FFStream → ProbeResult
deriving DecidableEq, Repr

/-- Python `int(str)` on the decimal forms that matter here: optional sign
followed by digits (`none` = `ValueError`; surrounding whitespace and
underscore separators accepted by Python are not modelled, no claim
depends on them). -/
def pyInt (s : List Char) : Option Int :=
  let digitsVal : List Char → Int := fun ds =>
    Int.ofNat (ds.foldl (fun a c => a * 10 + (c.toNat - 48)) 0)
  match s with
  | [] => none
  | '-' :: rest =>
    if rest ≠ [] ∧ rest.all Char.isDigit then some (-(digitsVal rest)) else none
  | '+' :: rest =>
    if rest ≠ [] ∧ rest.all Char.isDigit then some (digitsVal rest) else none
  | _ => if s.all Char.isDigit then some (digitsVal s) else none

/-- The first stream with `codec_type == 'audio'` — the loop at lines
134–141 breaks at the first audio stream. -/
def findAudio (streams : List FFStream) : Option FFStream :=
  streams.find? (fun st => st.codec_type = some ("audio".toList))

/-- `int(stream.get('sample_rate', 0))` (line 136): an absent key defaults
to the integer `0`; a present value is a string that `int` parses, raising
(`none`) when malformed. -/
def rateOf (st : FFStream) : Option Int :=
  match st.sample_rate with
  | none => some (0 : Int)
  | some s => pyInt s

/-- Lines 133–141 applied to a decoded `streams` list: `none` means the
body raised (unparsable `sample_rate`), `some b` is the final value of the
`needs_conversion` flag (`false` in particular when no audio stream is
present, since the flag is just never set). -/
def probedNeeds (streams : List FFStream) : Option Bool :=
  match findAudio streams with
  | none => some false
  | some st =>
    match rateOf st with
    | none => none
    | some rate => some (rate ≠ 44100 ∨ st.bits_per_sample.getD 0 ≠ 16 : Bool)

/-- `needs_conversion` for a file whose suffix lowercases to `.wav`
(lines 124–143): the flag starts `False`; any exception in the `try`
block — including a `ValueError` from `int()` — sets it `True`; a probe
that completes with non-zero exit status leaves it `False`. -/
def needsConversionWav : ProbeResult → Bool
  | .exc => true
  | .ok rc streams =>
    if rc = 0 then
      match probedNeeds streams with
      | none => true
      | some b => b
    else false

/-- Lowercase a name per character (`str.lower()`, ASCII mapping). -/
def lowerStr (s : List Char) : List Char := s.map Char.toLower

/-- `needs_conversion` (lines 124–146): `.wav` suffixes (case-insensitive)
are probed; every other extension always needs conversion. -/
def needsConversion (suffix : List Char) (pr : ProbeResult) : Bool :=
  if lowerStr suffix = ".wav".toList then needsConversionWav pr else true

/-- `needs_rename` (lines 119–121): the stem differs from its sanitized
form. -/
def needsRename (name : List Char) : Bool :=
  stemOf name ≠ sanitize_name (stemOf name)

/-- The per-file action, the combination of the two flags. -/
inductive FileAction where
  | none : FileAction
  | rename : FileAction
  | convert : FileAction
  | renameAndConvert : FileAction
deriving DecidableEq, Repr

def fileActionOf (nr nc : Bool) : FileAction :=
  match nr, nc with
  | false, false => .none
  | true, false => .rename
  | false, true => .convert
  | true, true => .renameAndConvert

/-- The decision for a file with name `name` whose probe (performed only
for case-insensitive `.wav` suffixes) yields `pr`. -/
def decideFile (name : List Char) (pr : ProbeResult) : FileAction :=
  fileActionOf (needsRename name) (needsConversion (suffixOf name) pr)

/-- `final_path`'s filename (line 149): `new_name + '.wav'` for every
processed file, whatever the decided action. -/
def finalNameOf (name : List Char) : List Char :=
  sanitize_name (stemOf name) ++ ".wav".toList

/-- The temporary encode target's filename (line 219):
`f"_tmp_{new_name}.wav"`. -/
def tempNameOf (name : List Char) : List Char :=
  "_tmp_".toList ++ sanitize_name (stemOf name) ++ ".wav".toList

/-- The action list printed/logged by preview mode (lines 165–169). -/
def previewActions (nr nc : Bool) : List (List Char) :=
  (if nr then ["rename".toList] else []) ++ (if nc then ["convert".toList] else [])

/-- The mutation actually carried out by apply mode when the filesystem
operations succeed (lines 201–254): a conversion writes the fully
normalized final name, so it subsumes the rename; otherwise a bare rename
runs; `FileAction.none` files were already skipped at line 157. -/
def appliedAction (nr nc : Bool) : FileAction :=
  if nc then (if nr then .renameAndConvert else .convert)
  else if nr then .rename else .none

/-- Reading a preview report line back as an action. -/
def actionOfList (l : List (List Char)) : FileAction :=
  fileActionOf (l.contains ("rename".toList)) (l.contains ("convert".toList))

/-- A file path: directory components (relative to the target root) and
filename. -/
abbrev FPath := List (List Char) × List Char

/-- The filesystem's files, as the set of existing paths; list order is
`os.walk` order.  Paths are unique. -/
abbrev Fs := List FPath

/-- File creation (the encoder writing `temp`, or a rename installing its
target). -/
def addFile (fs : Fs) (p : FPath) : Fs := fs ++ [p]

/-- `Path.unlink` / the source side of `Path.rename`. -/
def removeFile (fs : Fs) (p : FPath) : Fs := fs.filter (fun q => q ≠ p)

/-- Result of one per-file transformation attempt: the filesystem after
each primitive operation (the observable instants, the starting state
included), the final filesystem, the `success` flag, the deltas to the
four counters, and whether an `ERROR`-level line was written to the log. -/
structure StepResult where
  fsTrace : List Fs
  fs : Fs
  succ : Bool
  dRenamed : Nat
  dConverted : Nat
  dFailed : Nat
  dProcessed : Nat
  errLogged : Bool
deriving Repr

/-- The conversion branch of apply mode (lines 201–241), for a file at
`old` with temp target `temp` and final target `final`; `nr` is the
`needs_rename` flag.  `encodeOk` is `process_audio_file` returning `True`
(lines 63–85; its failure return covers non-zero `ffmpeg` exit, the 30 s
timeout, and any other exception, all of which write an error line to the
log).  `unlinkOk`/`renameOk` say whether `old_path.unlink()` (line 224)
and `temp_path.rename(final_path)` (line 225) return or raise; a raise
lands in the handler at lines 232–236, which logs the error and removes
the temp file if it exists.  `leftoverTemp` says whether a failed encode
left a partial temp file behind (cleaned up at lines 239–240).  Note the
handler does not touch the `failed` counter; only a failed encode does
(line 241). -/
def convertStep (fs : Fs) (old temp final : FPath)
    (nr encodeOk unlinkOk renameOk leftoverTemp : Bool) : StepResult :=
  if encodeOk then
    let fs1 := addFile fs temp
    if unlinkOk then
      let fs2 := removeFile fs1 old
      if renameOk then
        let fs3 := addFile (removeFile fs2 temp) final
        ⟨[fs, fs1, fs2, fs3], fs3, true, (if nr then 1 else 0), 1, 0, 1, false⟩
      else
        let fs3 := removeFile fs2 temp
        ⟨[fs, fs1, fs2, fs3], fs3, false, 0, 0, 0, 0, true⟩
    else
      let fs2 := removeFile fs1 temp
      ⟨[fs, fs1, fs2], fs2, false, 0, 0, 0, 0, true⟩
  else
    let fs1 := if leftoverTemp then addFile fs temp else fs
    let fs2 := removeFile fs1 temp
    ⟨[fs, fs1, fs2], fs2, false, 0, 0, 1, 0, true⟩

/-- The rename-only branch of apply mode (lines 243–254). -/
def renameStep (fs : Fs) (old final : FPath) (renameOk : Bool) : StepResult :=
  if renameOk then
    let fs1 := addFile (removeFile fs old) final
    ⟨[fs, fs1], fs1, true, 1, 0, 0, 1, false⟩
  else
    ⟨[fs], fs, false, 0, 0, 1, 0, true⟩

/-- Entries of the run's report/console trace, tagged by origin. -/
inductive Event where
  | dirRenamed : List (List Char) → List (List Char) → Event
  | dirRenameError : List (List Char) → Event
  | discovered : List FPath → Event
  | visited : FPath → Event
  | planned : FPath → List (List Char) → Event
  | applied : FPath → Event
deriving DecidableEq, Repr

def isDirEvent : Event → Bool
  | .dirRenamed _ _ => true
  | .dirRenameError _ => true
  | _ => false

def isDiscovery : Event → Bool
  | .discovered _ => true
  | _ => false

def isVisit : Event → Bool
  | .visited _ => true
  | _ => false

/-- The external-world outcomes of a run: the `ffprobe` result per file,
the success of each subprocess/filesystem operation, keyed by the file's
path at the time of the operation. -/
structure Oracles where
  probe : FPath → ProbeResult
  encodeOk : FPath → Bool
  unlinkOk : FPath → Bool
  renameOk : FPath → Bool
  leftoverTemp : FPath → Bool
  dirOk : List (List Char) → Bool

/-- Running state of Phase 2 (counters of lines 109–112 plus the log
trace). -/
structure RunState where
  fs : Fs
  renamed : Nat
  converted : Nat
  failed : Nat
  processed : Nat
  events : List Event
deriving Repr

/-- One iteration of the per-file loop (lines 114–257).  A `visited`
event marks the loop turn; a path that no longer exists is skipped
silently (lines 115–116), as is an action-`none` file (lines 156–158);
note `needs_conversion` is computed (the probe runs) before the skip
test.  In dry-run mode lines 163–196 only report and bump counters. -/
def stepFile (orc : Oracles) (dry : Bool) (st : RunState) (f : FPath) : RunState :=
  let st0 := { st with events := st.events ++ [.visited f] }
  if f ∈ st.fs then
    let nr := needsRename f.2
    let nc := needsConversion (suffixOf f.2) (orc.probe f)
    if !nr && !nc then st0
    else if dry then
      { st0 with
        renamed := st0.renamed + (if nr then 1 else 0),
        converted := st0.converted + (if nc then 1 else 0),
        processed := st0.processed + 1,
        events := st0.events ++ [.planned f (previewActions nr nc)] }
    else
      let finalP : FPath := (f.1, finalNameOf f.2)
      let r :=
        if nc then
          convertStep st0.fs f (f.1, tempNameOf f.2) finalP nr
            (orc.encodeOk f) (orc.unlinkOk f) (orc.renameOk f) (orc.leftoverTemp f)
        else
          renameStep st0.fs f finalP (orc.renameOk f)
      { fs := r.fs,
        renamed := st0.renamed + r.dRenamed,
        converted := st0.converted + r.dConverted,
        failed := st0.failed + r.dFailed,
        processed := st0.processed + r.dProcessed,
        events := st0.events ++ [.applied f] }
  else st0

/-- The per-file loop over the materialized candidate list. -/
def runLoop (orc : Oracles) (dry : Bool) (files : List FPath) (st : RunState) : RunState :=
  files.foldl (stepFile orc dry) st

/-- The audio-extension filter of the scanner (lines 96–99):
case-insensitive extension check, exact-case exclusion of the report
file. -/
def isAudioName (n : List Char) : Bool :=
  (".wav".toList.isSuffixOf (lowerStr n) || ".aif".toList.isSuffixOf (lowerStr n) ||
   ".aiff".toList.isSuffixOf (lowerStr n) || ".mp3".toList.isSuffixOf (lowerStr n) ||
   ".flac".toList.isSuffixOf (lowerStr n)) && n ≠ "processing_log.txt".toList

/-- The scanner (lines 93–99): the candidate list, materialized in full
from the current filesystem before the loop starts. -/
def collectAudio (fs : Fs) : List FPath := fs.filter (fun f => isAudioName f.2)

/-- Phase 2 (`process_files`, lines 87–271): scan, then loop. -/
def processFiles (orc : Oracles) (dry : Bool) (fs : Fs) : RunState :=
  let cs := collectAudio fs
  runLoop orc dry cs
    { fs := fs, renamed := 0, converted := 0, failed := 0, processed := 0,
      events := [.discovered cs] }

/-- State of Phase 1: the set of existing directories (as component lists
relative to the root, the root itself excluded, in walk order), the
files, the rename counter and the trace. -/
structure DirState where
  dirs : List (List (List Char))
  files : Fs
  renamedCount : Nat
  events : List Event
deriving Repr

/-- Renaming directory `old` to `new` moves every descendant implicitly:
every path having `old` as a prefix is rebased onto `new`. -/
def rebase (old new p : List (List Char)) : List (List Char) :=
  if old.isPrefixOf p then new ++ p.drop old.length else p

/-- One iteration of the Phase-1 loop (lines 30–57): skip vanished
directories, skip already-canonical names, otherwise log the rename and —
outside dry-run — perform it when the oracle says the OS rename call
succeeds (the `except` at lines 55–57 logs and moves on). -/
def renameDirStep (dirOk : List (List Char) → Bool) (dry : Bool)
    (st : DirState) (d : List (List Char)) : DirState :=
  if d ∈ st.dirs then
    match d.getLast? with
    | none => st
    | some name =>
      if name = sanitize_name name then st
      else if dry then
        { st with events := st.events ++ [.dirRenamed d (d.dropLast ++ [sanitize_name name])] }
      else if dirOk d then
        { dirs := st.dirs.map (rebase d (d.dropLast ++ [sanitize_name name])),
          files := st.files.map
            (fun f => (rebase d (d.dropLast ++ [sanitize_name name]) f.1, f.2)),
          renamedCount := st.renamedCount + 1,
          events := st.events ++ [.dirRenamed d (d.dropLast ++ [sanitize_name name])] }
      else { st with events := st.events ++ [.dirRenameError d] }
  else st

/-- Phase 1 (`rename_directories`, lines 14–61): all directories, deepest
(most components) first — `sort(key=len(parts), reverse=True)` — then the
rename loop. -/
def renameDirectories (dirOk : List (List Char) → Bool) (dry : Bool)
    (dirs0 : List (List (List Char))) (fs0 : Fs) : DirState :=
  let sorted := dirs0.mergeSort (fun a b => Nat.ble b.length a.length)
  sorted.foldl (renameDirStep dirOk dry) ⟨dirs0, fs0, 0, []⟩

/-- The whole run after the pre-flight checks (`main`, lines 344–354):
Phase 1 to completion, then Phase 2 on the resulting tree. -/
def mainRun (orc : Oracles) (dry : Bool)
    (dirs0 : List (List (List Char))) (fs0 : Fs) : RunState :=
  let d1 := renameDirectories orc.dirOk dry dirs0 fs0
  let st := processFiles orc dry d1.files
  { st with events := d1.events ++ st.events }

/-! ## Helper lemmas -/

/-- `Char.ofNat` of a scalar value below the surrogate range decodes back
to the same `Nat`. -/
theorem toNat_ofNat_valid (n : Nat) (h : n < 55296) : (Char.ofNat n).toNat = n := by
  have hv : n.isValidChar := Or.inl h
  simp only [Char.ofNat, hv, dite_true]
  rfl

/-- ASCII lowercasing is idempotent. -/
theorem toLower_toLower (c : Char) : c.toLower.toLower = c.toLower := by
  show (if c.toLower.toNat ≥ 65 ∧ c.toLower.toNat ≤ 90 then
          Char.ofNat (c.toLower.toNat + 32) else c.toLower) = c.toLower
  by_cases h : c.toNat ≥ 65 ∧ c.toNat ≤ 90
  · have hl : c.toLower = Char.ofNat (c.toNat + 32) := by
      show (if c.toNat ≥ 65 ∧ c.toNat ≤ 90 then Char.ofNat (c.toNat + 32) else c) = _
      rw [if_pos h]
    have h1 : (Char.ofNat (c.toNat + 32)).toNat = c.toNat + 32 :=
      toNat_ofNat_valid _ (by omega)
    rw [hl, h1, if_neg (by omega)]
  · have hl : c.toLower = c := by
      show (if c.toNat ≥ 65 ∧ c.toNat ≤ 90 then Char.ofNat (c.toNat + 32) else c) = c
      rw [if_neg h]
    rw [hl, if_neg h]

/-- `Char.toLower` maps no character to a space except the space itself. -/
theorem toLower_eq_space (c : Char) (h : c.toLower = ' ') : c = ' ' := by
  by_cases hc : c.toNat ≥ 65 ∧ c.toNat ≤ 90
  · exfalso
    have hl : c.toLower = Char.ofNat (c.toNat + 32) := by
      show (if c.toNat ≥ 65 ∧ c.toNat ≤ 90 then Char.ofNat (c.toNat + 32) else c) = _
      rw [if_pos hc]
    have h1 : (Char.ofNat (c.toNat + 32)).toNat = c.toNat + 32 :=
      toNat_ofNat_valid _ (by omega)
    rw [← hl, h] at h1
    have h2 : (' ' : Char).toNat = 32 := by decide
    omega
  · have hl : c.toLower = c := by
      show (if c.toNat ≥ 65 ∧ c.toNat ≤ 90 then Char.ofNat (c.toNat + 32) else c) = c
      rw [if_neg hc]
    rw [← hl, h]

theorem charNorm_idem (c : Char) : charNorm (charNorm c) = charNorm c := by
  by_cases h : c = ' '
  · subst h; decide
  · have h2 : c.toLower ≠ ' ' := fun hh => h (toLower_eq_space c hh)
    have h3 : charNorm c = c.toLower := by unfold charNorm; rw [if_neg h]
    rw [h3]
    unfold charNorm
    rw [if_neg h2, toLower_toLower]

/-- `sanitize_name` is the per-character map `charNorm`. -/
theorem sanitize_eq_map_charNorm (s : List Char) :
    sanitize_name s = s.map charNorm := by
  unfold sanitize_name
  rw [List.map_map]
  apply List.map_congr_left
  intro c _
  simp only [Function.comp_apply]
  by_cases h : c = ' '
  · subst h; decide
  · have h2 : c.toLower ≠ ' ' := fun hh => h (toLower_eq_space c hh)
    unfold charNorm
    rw [if_neg h2, if_neg h]

/-- `sanitize_name` is idempotent. -/
theorem sanitize_name_idem (s : List Char) :
    sanitize_name (sanitize_name s) = sanitize_name s := by
  rw [sanitize_eq_map_charNorm, sanitize_eq_map_charNorm, List.map_map]
  apply List.map_congr_left
  intro c _
  exact charNorm_idem c

theorem sanitize_name_length (s : List Char) :
    (sanitize_name s).length = s.length := by
  rw [sanitize_eq_map_charNorm, List.length_map]

/-- The last dot of `x ++ '.' :: t` sits at index `x.length` when `t` is
dot-free. -/
theorem rfindDot_append (x t : List Char) (ht : '.' ∉ t) :
    rfindDot (x ++ '.' :: t) = some x.length := by
  unfold rfindDot
  have hrev : (x ++ '.' :: t).reverse = t.reverse ++ '.' :: x.reverse := by
    simp
  rw [hrev, List.findIdx?_append]
  have hnone : t.reverse.findIdx? (fun c => c = '.') = none := by
    rw [List.findIdx?_eq_none_iff]
    intro c hc
    simp only [decide_eq_false_iff_not]
    intro hcd
    exact ht (by simpa [hcd] using (List.mem_reverse.mp hc))
  have hcons : ('.' :: x.reverse).findIdx? (fun c => c = '.') = some 0 := by
    simp [List.findIdx?_cons]
  rw [hnone, hcons]
  show some ((x ++ '.' :: t).length - 1 - (0 + t.reverse.length)) = some x.length
  congr 1
  simp only [List.length_append, List.length_cons, List.length_reverse]
  omega

theorem stemOf_append (x t : List Char) (hx : x ≠ []) (ht : '.' ∉ t) (ht2 : t ≠ []) :
    stemOf (x ++ '.' :: t) = x := by
  unfold stemOf
  rw [rfindDot_append x t ht]
  have hxl : 0 < x.length := List.length_pos.mpr hx
  have htl : 0 < t.length := List.length_pos.mpr ht2
  have hcond : 0 < x.length ∧ x.length < (x ++ '.' :: t).length - 1 := by
    constructor
    · exact hxl
    · simp [List.length_append]
      omega
  show (if 0 < x.length ∧ x.length < (x ++ '.' :: t).length - 1 then
          List.take x.length (x ++ '.' :: t) else x ++ '.' :: t) = x
  rw [if_pos hcond, List.take_left]

theorem suffixOf_append (x t : List Char) (hx : x ≠ []) (ht : '.' ∉ t) (ht2 : t ≠ []) :
    suffixOf (x ++ '.' :: t) = '.' :: t := by
  unfold suffixOf
  rw [rfindDot_append x t ht]
  have hxl : 0 < x.length := List.length_pos.mpr hx
  have htl : 0 < t.length := List.length_pos.mpr ht2
  have hcond : 0 < x.length ∧ x.length < (x ++ '.' :: t).length - 1 := by
    constructor
    · exact hxl
    · simp [List.length_append]
      omega
  show (if 0 < x.length ∧ x.length < (x ++ '.' :: t).length - 1 then
          List.drop x.length (x ++ '.' :: t) else []) = '.' :: t
  rw [if_pos hcond, List.drop_left]

/-! ## Claim theorems -/

/-- C8: `sanitize_name` is exactly the per-character map sending a space
to an underscore and any other character to its lowercase form, it
changes no character that is neither a space nor an uppercase letter, and
it is idempotent.  (Totality — "never raises" — holds by construction:
the embedding is a total function, just as `str.lower`/`str.replace`
cannot raise.) -/
theorem c8_normalizer_pure :
    (∀ s : List Char, sanitize_name s = s.map charNorm)
    ∧ (∀ c : Char, c ≠ ' ' → ¬(c.toNat ≥ 65 ∧ c.toNat ≤ 90) → charNorm c = c)
    ∧ (∀ s : List Char, sanitize_name (sanitize_name s) = sanitize_name s) := by
  refine ⟨sanitize_eq_map_charNorm, ?_, sanitize_name_idem⟩
  intro c h1 h2
  unfold charNorm
  rw [if_neg h1]
  show (if c.toNat ≥ 65 ∧ c.toNat ≤ 90 then Char.ofNat (c.toNat + 32) else c) = c
  rw [if_neg h2]

/-- C8 witness: the punctuation character `!` is left unchanged, via the
second conjunct at a concrete input. -/
theorem c8_normalizer_pure_witness : charNorm '!' = '!' :=
  c8_normalizer_pure.2.1 '!' (by decide) (by decide)

/-- C2 counterexample: the claim says a probe that completes with
non-zero exit status, or that finds no audio stream, yields
`needs_conversion = True` for a `.wav` file; the code leaves the flag
`False` in both situations (lines 132–141 silently fall through). -/
theorem c2_counterexample :
    needsConversion (".wav".toList) (ProbeResult.ok 1 []) = false
    ∧ needsConversion (".wav".toList) (ProbeResult.ok 0 []) = false := by
  constructor <;> rfl

/-- C2 amended: for a canonical-container suffix the flag is `true` on a
raised probe exception (utility unavailable, timeout, malformed JSON,
unparsable `sample_rate`), `false` when the probe exits non-zero, `false`
when it exits zero without an audio stream, and otherwise decided by the
first audio stream's sample rate and bit depth; any non-`.wav` suffix
always needs conversion. -/
theorem c2_amended :
    (needsConversion (".wav".toList) ProbeResult.exc = true)
    ∧ (∀ (rc : Int) (streams : List FFStream), rc ≠ 0 →
        needsConversion (".wav".toList) (.ok rc streams) = false)
    ∧ (∀ streams : List FFStream, findAudio streams = none →
        needsConversion (".wav".toList) (.ok 0 streams) = false)
    ∧ (∀ (streams : List FFStream) (st : FFStream),
        findAudio streams = some st → rateOf st = none →
        needsConversion (".wav".toList) (.ok 0 streams) = true)
    ∧ (∀ (streams : List FFStream) (st : FFStream) (r : Int),
        findAudio streams = some st → rateOf st = some r →
        (needsConversion (".wav".toList) (.ok 0 streams) = true ↔
          (r ≠ 44100 ∨ st.bits_per_sample.getD 0 ≠ 16)))
    ∧ (∀ (ext : List Char) (pr : ProbeResult), lowerStr ext ≠ ".wav".toList →
        needsConversion ext pr = true) := by
  have hwav : lowerStr (".wav".toList) = ".wav".toList := by decide
  refine ⟨rfl, ?_, ?_, ?_, ?_, ?_⟩
  · intro rc streams hrc
    unfold needsConversion
    rw [if_pos hwav]
    show (if rc = 0 then
            (match probedNeeds streams with | none => true | some b => b)
          else false) = false
    rw [if_neg hrc]
  · intro streams hna
    unfold needsConversion
    rw [if_pos hwav]
    show (match probedNeeds streams with | none => true | some b => b) = false
    unfold probedNeeds
    rw [hna]
  · intro streams st hfa hrate
    unfold needsConversion
    rw [if_pos hwav]
    show (match probedNeeds streams with | none => true | some b => b) = true
    unfold probedNeeds
    rw [hfa]
    show (match (match rateOf st with
            | none => none
            | some rate => some (decide (rate ≠ 44100 ∨ st.bits_per_sample.getD 0 ≠ 16))) with
          | none => true | some b => b) = true
    rw [hrate]
  · intro streams st r hfa hrate
    unfold needsConversion
    rw [if_pos hwav]
    show (match probedNeeds streams with | none => true | some b => b) = true ↔
      (r ≠ 44100 ∨ st.bits_per_sample.getD 0 ≠ 16)
    unfold probedNeeds
    rw [hfa]
    show (match (match rateOf st with
            | none => none
            | some rate => some (decide (rate ≠ 44100 ∨ st.bits_per_sample.getD 0 ≠ 16))) with
          | none => true | some b => b) = true ↔
      (r ≠ 44100 ∨ st.bits_per_sample.getD 0 ≠ 16)
    rw [hrate]
    simp
  · intro ext pr hext
    unfold needsConversion
    rw [if_neg hext]

/-- C2 witness: a raised probe exception on a `.wav` file does force
conversion, and an `.mp3` always does. -/
theorem c2_amended_witness :
    needsConversion (".wav".toList) ProbeResult.exc = true
    ∧ needsConversion (".mp3".toList) ProbeResult.exc = true :=
  ⟨c2_amended.1, c2_amended.2.2.2.2.2 (".mp3".toList) ProbeResult.exc (by decide)⟩

/-- C6 counterexample: a `.wav` file with canonical name, 44100 Hz and
16 bits but only one channel is decided `None`, not `Convert` — channel
count is never probed (lines 132–141 read only `sample_rate` and
`bits_per_sample`). -/
theorem c6_counterexample :
    decideFile ("kick.wav".toList)
      (ProbeResult.ok 0
        [⟨some ("audio".toList), some ("44100".toList), some 16, some 1⟩])
      = FileAction.none
    ∧ FileAction.none ≠ FileAction.convert := by
  constructor
  · rfl
  · decide

/-- C6 amended: the decision compares the Format Descriptor to the target
only on sample rate and bit depth (and the container via the extension);
the channel count is not consulted at all — replacing every stream's
`channels` field never changes the probed flag — and in particular a
canonically named `.wav` at 44100 Hz/16-bit is decided `None` whatever
its channel count. -/
theorem c6_amended :
    (∀ (rc : Int) (streams : List FFStream) (c : Option Int),
      needsConversionWav (.ok rc (streams.map (fun st => { st with channels := c })))
        = needsConversionWav (.ok rc streams))
    ∧ (∀ (name : List Char) (c : Option Int),
        needsRename name = false → lowerStr (suffixOf name) = ".wav".toList →
        decideFile name
          (.ok 0 [⟨some ("audio".toList), some ("44100".toList), some 16, c⟩])
          = FileAction.none) := by
  constructor
  · intro rc streams c
    have hfa : findAudio (streams.map (fun st => { st with channels := c }))
        = (findAudio streams).map (fun st => { st with channels := c }) := by
      induction streams with
      | nil => rfl
      | cons st rest ih =>
        unfold findAudio at ih ⊢
        rw [List.map_cons]
        by_cases h : st.codec_type = some ("audio".toList)
        · rw [List.find?_cons_of_pos _ (by simpa using h),
              List.find?_cons_of_pos _ (by simpa using h)]
          rfl
        · rw [List.find?_cons_of_neg _ (by simpa using h),
              List.find?_cons_of_neg _ (by simpa using h)]
          exact ih
    have hpn : probedNeeds (streams.map (fun st => { st with channels := c }))
        = probedNeeds streams := by
      unfold probedNeeds
      rw [hfa]
      cases findAudio streams with
      | none => rfl
      | some st => rfl
    show (if rc = 0 then
            (match probedNeeds (streams.map (fun st => { st with channels := c })) with
              | none => true | some b => b)
          else false)
        = (if rc = 0 then
            (match probedNeeds streams with | none => true | some b => b)
          else false)
    rw [hpn]
  · intro name c hnr hsuf
    unfold decideFile
    rw [hnr]
    have hnc : needsConversion (suffixOf name)
        (.ok 0 [⟨some ("audio".toList), some ("44100".toList), some 16, c⟩]) = false := by
      unfold needsConversion
      rw [if_pos hsuf]
      rfl
    rw [hnc]
    rfl

/-- C6 witness: the amended decision at a concrete stereo-flagged input. -/
theorem c6_amended_witness :
    decideFile ("kick.wav".toList)
      (ProbeResult.ok 0
        [⟨some ("audio".toList), some ("44100".toList), some 16, some 2⟩])
      = FileAction.none :=
  c6_amended.2 ("kick.wav".toList) (some 2) (by decide) (by decide)

/-- C3: the decision is (by construction) a pure function of the current
name and the probed format, and on the output of a successful conversion
— name `sanitize_name stem + '.wav'` (line 149, with the original stem
nonempty), probed sample rate 44100 and bit depth 16 (what the encoder of
lines 63–79 produces) — it is `FileAction.none`, so the file is skipped
at line 157 and a second apply run performs zero actions on it. -/
theorem c3_idempotent_none (s : List Char) (streams : List FFStream) (st : FFStream)
    (hs : s ≠ []) (hfa : findAudio streams = some st)
    (hrate : rateOf st = some 44100) (hbits : st.bits_per_sample = some 16) :
    decideFile (sanitize_name s ++ ".wav".toList) (.ok 0 streams) = FileAction.none := by
  have hsan : sanitize_name s ≠ [] := by
    intro h
    apply hs
    have hl := sanitize_name_length s
    rw [h] at hl
    exact List.length_eq_zero.mp hl.symm
  have hdot : (".wav".toList : List Char) = '.' :: "wav".toList := rfl
  have hstem : stemOf (sanitize_name s ++ ".wav".toList) = sanitize_name s := by
    rw [hdot]
    exact stemOf_append _ _ hsan (by decide) (by decide)
  have hsuf : suffixOf (sanitize_name s ++ ".wav".toList) = ".wav".toList := by
    rw [hdot]
    exact suffixOf_append _ _ hsan (by decide) (by decide)
  have hnr : needsRename (sanitize_name s ++ ".wav".toList) = false := by
    unfold needsRename
    rw [hstem, sanitize_name_idem]
    simp
  have hnc : needsConversion (".wav".toList) (.ok 0 streams) = false := by
    unfold needsConversion
    rw [if_pos (by decide : lowerStr (".wav".toList) = ".wav".toList)]
    show (match probedNeeds streams with | none => true | some b => b) = false
    unfold probedNeeds
    rw [hfa]
    show (match (match rateOf st with
            | none => none
            | some rate => some (decide (rate ≠ 44100 ∨ st.bits_per_sample.getD 0 ≠ 16))) with
          | none => true | some b => b) = false
    rw [hrate, hbits]
    decide
  unfold decideFile
  rw [hnr, hsuf, hnc]
  rfl

/-- C3 witness: a converted file named `snare.wav` probing at
44100 Hz/16-bit is decided `None`. -/
theorem c3_idempotent_none_witness :
    decideFile ("snare.wav".toList)
      (ProbeResult.ok 0
        [⟨some ("audio".toList), some ("44100".toList), some 16, none⟩])
      = FileAction.none :=
  c3_idempotent_none ("snare".toList)
    [⟨some ("audio".toList), some ("44100".toList), some 16, none⟩]
    ⟨some ("audio".toList), some ("44100".toList), some 16, none⟩
    (by decide) (by decide) (by decide) (by decide)

/-- C10: a file whose extension is `.WAV`, whose stem is already
canonical and which probes at 44100 Hz/16-bit is decided `None` — only
the stem enters `needs_rename` (lines 119–121), so the upper-case
extension is never lowercased: the loop leaves the filesystem and every
counter unchanged for such a file (lines 156–158), on any number of
runs. -/
theorem c10_upper_ext_skipped :
    (∀ (x : List Char) (streams : List FFStream) (st : FFStream),
      x ≠ [] → sanitize_name x = x →
      findAudio streams = some st → rateOf st = some 44100 →
      st.bits_per_sample = some 16 →
      decideFile (x ++ ".WAV".toList) (.ok 0 streams) = FileAction.none)
    ∧ (∀ (orc : Oracles) (dry : Bool) (rs : RunState) (f : FPath),
        needsRename f.2 = false →
        needsConversion (suffixOf f.2) (orc.probe f) = false →
        (stepFile orc dry rs f).fs = rs.fs
        ∧ (stepFile orc dry rs f).renamed = rs.renamed
        ∧ (stepFile orc dry rs f).converted = rs.converted
        ∧ (stepFile orc dry rs f).failed = rs.failed) := by
  constructor
  · intro x streams st hx hsanx hfa hrate hbits
    have hdot : (".WAV".toList : List Char) = '.' :: "WAV".toList := rfl
    have hstem : stemOf (x ++ ".WAV".toList) = x := by
      rw [hdot]
      exact stemOf_append _ _ hx (by decide) (by decide)
    have hsuf : suffixOf (x ++ ".WAV".toList) = ".WAV".toList := by
      rw [hdot]
      exact suffixOf_append _ _ hx (by decide) (by decide)
    have hnr : needsRename (x ++ ".WAV".toList) = false := by
      unfold needsRename
      rw [hstem, hsanx]
      simp
    have hnc : needsConversion (".WAV".toList) (.ok 0 streams) = false := by
      unfold needsConversion
      rw [if_pos (by decide : lowerStr (".WAV".toList) = ".wav".toList)]
      show (match probedNeeds streams with | none => true | some b => b) = false
      unfold probedNeeds
      rw [hfa]
      show (match (match rateOf st with
              | none => none
              | some rate => some (decide (rate ≠ 44100 ∨ st.bits_per_sample.getD 0 ≠ 16))) with
            | none => true | some b => b) = false
      rw [hrate, hbits]
      decide
    unfold decideFile
    rw [hnr, hsuf, hnc]
    rfl
  · intro orc dry rs f hnr hnc
    simp only [stepFile, hnr, hnc]
    by_cases hf : f ∈ rs.fs <;> simp [hf]

/-- C10 witness: `KICK.WAV` at 44100 Hz/16-bit is decided `None`. -/
theorem c10_upper_ext_skipped_witness :
    decideFile ("kick.WAV".toList)
      (ProbeResult.ok 0
        [⟨some ("audio".toList), some ("44100".toList), some 16, some 2⟩])
      = FileAction.none :=
  c10_upper_ext_skipped.1 ("kick".toList)
    [⟨some ("audio".toList), some ("44100".toList), some 16, some 2⟩]
    ⟨some ("audio".toList), some ("44100".toList), some 16, some 2⟩
    (by decide) (by decide) (by decide) (by decide) (by decide)

/-- C5 counterexample: `My Kick.WAV` at 44100 Hz/16-bit is decided
rename-only, but its target name (line 149: `new_name + '.wav'`) is
`my_kick.wav`, not the claimed "normalized stem joined with the original
extension, unchanged" (`my_kick.WAV`). -/
theorem c5_counterexample :
    decideFile ("My Kick.WAV".toList)
      (ProbeResult.ok 0
        [⟨some ("audio".toList), some ("44100".toList), some 16, some 2⟩])
      = FileAction.rename
    ∧ finalNameOf ("My Kick.WAV".toList)
        ≠ sanitize_name (stemOf ("My Kick.WAV".toList))
            ++ suffixOf ("My Kick.WAV".toList) := by
  constructor
  · rfl
  · decide

/-- C5 amended: a rename-only file's target is the normalized stem joined
with the *lowercased* original extension, within the same directory
(`old_path.parent`, line 149); rename-only can only arise when the
original extension is already `.wav` up to letter case, so only its case
can change, and only conversion can install `.wav` on files of other
extensions. -/
theorem c5_amended (name : List Char) (pr : ProbeResult)
    (h : decideFile name pr = FileAction.rename) :
    lowerStr (suffixOf name) = ".wav".toList
    ∧ finalNameOf name = sanitize_name (stemOf name) ++ lowerStr (suffixOf name) := by
  have hnc : needsConversion (suffixOf name) pr = false := by
    unfold decideFile at h
    cases hnr2 : needsRename name <;>
      cases hnc2 : needsConversion (suffixOf name) pr <;>
        rw [hnr2, hnc2] at h <;> first | rfl | exact absurd h (by decide)
  have hx : lowerStr (suffixOf name) = ".wav".toList := by
    by_cases hx2 : lowerStr (suffixOf name) = ".wav".toList
    · exact hx2
    · exfalso
      unfold needsConversion at hnc
      rw [if_neg hx2] at hnc
      exact absurd hnc (by decide)
  refine ⟨hx, ?_⟩
  unfold finalNameOf
  rw [hx]

/-- C5 witness: the amended rename-only target for `Snare Hit.wav`. -/
theorem c5_amended_witness :
    lowerStr (suffixOf ("Snare Hit.wav".toList)) = ".wav".toList
    ∧ finalNameOf ("Snare Hit.wav".toList)
        = sanitize_name (stemOf ("Snare Hit.wav".toList))
            ++ lowerStr (suffixOf ("Snare Hit.wav".toList)) :=
  c5_amended ("Snare Hit.wav".toList)
    (ProbeResult.ok 0
      [⟨some ("audio".toList), some ("44100".toList), some 16, some 2⟩])
    (by decide)

/-- C7: both modes branch on the same `needs_rename`/`needs_conversion`
flags, computed once at lines 119–146 before the `dry_run` split; the
action list reported by preview (lines 165–169) denotes exactly the
action apply mode carries out (lines 201–254, the conversion branch
subsuming the rename by targeting the fully normalized final name), and
both equal the decision function. -/
theorem c7_preview_apply_consistent (name : List Char) (pr : ProbeResult) :
    actionOfList (previewActions (needsRename name) (needsConversion (suffixOf name) pr))
      = appliedAction (needsRename name) (needsConversion (suffixOf name) pr)
    ∧ appliedAction (needsRename name) (needsConversion (suffixOf name) pr)
      = decideFile name pr := by
  unfold decideFile
  cases needsRename name <;> cases needsConversion (suffixOf name) pr <;>
    exact ⟨by decide, by decide⟩

theorem mem_addFile_self (fs : Fs) (p : FPath) : p ∈ addFile fs p := by
  simp [addFile]

theorem mem_addFile_of_mem {fs : Fs} {q : FPath} (p : FPath) (h : q ∈ fs) :
    q ∈ addFile fs p := by
  simp [addFile, h]

theorem mem_removeFile {fs : Fs} {p q : FPath} :
    q ∈ removeFile fs p ↔ q ∈ fs ∧ q ≠ p := by
  simp [removeFile, List.mem_filter]

/-- C1 counterexample: with the encode and the delete-original succeeding
but the install-replacement rename raising, the handler at lines 232–236
deletes the temp file even though the original is already gone — the
trace ends with neither the original, nor the temp, nor the replacement
on disk, refuting "in no execution path are both absent at once". -/
theorem c1_counterexample :
    ¬ (∀ s ∈ (convertStep [(([] : List (List Char)), "a.aif".toList)]
          (([] : List (List Char)), "a.aif".toList)
          (([] : List (List Char)), "_tmp_a.wav".toList)
          (([] : List (List Char)), "a.wav".toList) true true true false false).fsTrace,
        (([] : List (List Char)), "a.aif".toList) ∈ s
        ∨ (([] : List (List Char)), "_tmp_a.wav".toList) ∈ s
        ∨ (([] : List (List Char)), "a.wav".toList) ∈ s) := by
  decide

/-- C1 amended: the original is deleted only after the encoder has
reported success (no trace state lacks the original unless the encode
succeeded), and in every execution in which the install-replacement
rename does not fail after a successful delete — in particular in every
successful conversion — some copy (original, temp, or replacement) exists
at every observable instant.  The one residual path (delete succeeds,
install fails) is the data-loss window the source itself leaves open
(lines 232–236). -/
theorem c1_amended (fs : Fs) (old temp final : FPath) (nr e u r lt : Bool)
    (hold : old ∈ fs) (hne : old ≠ temp) :
    ((e = true → u = true → r = true) →
      ∀ s ∈ (convertStep fs old temp final nr e u r lt).fsTrace,
        old ∈ s ∨ temp ∈ s ∨ final ∈ s)
    ∧ (∀ s ∈ (convertStep fs old temp final nr e u r lt).fsTrace,
        old ∉ s → e = true) := by
  cases e with
  | false =>
    cases lt with
    | false =>
      have hall : ∀ s ∈ (convertStep fs old temp final nr false u r false).fsTrace,
          old ∈ s := by
        have ht : (convertStep fs old temp final nr false u r false).fsTrace
            = [fs, fs, removeFile fs temp] := rfl
        intro s hs
        rw [ht] at hs
        simp only [List.mem_cons, List.not_mem_nil, or_false] at hs
        rcases hs with rfl | rfl | rfl
        · exact hold
        · exact hold
        · exact mem_removeFile.mpr ⟨hold, hne⟩
      exact ⟨fun _ s hs => Or.inl (hall s hs), fun s hs hno => absurd (hall s hs) hno⟩
    | true =>
      have hall : ∀ s ∈ (convertStep fs old temp final nr false u r true).fsTrace,
          old ∈ s := by
        have ht : (convertStep fs old temp final nr false u r true).fsTrace
            = [fs, addFile fs temp, removeFile (addFile fs temp) temp] := rfl
        intro s hs
        rw [ht] at hs
        simp only [List.mem_cons, List.not_mem_nil, or_false] at hs
        rcases hs with rfl | rfl | rfl
        · exact hold
        · exact mem_addFile_of_mem _ hold
        · exact mem_removeFile.mpr ⟨mem_addFile_of_mem _ hold, hne⟩
      exact ⟨fun _ s hs => Or.inl (hall s hs), fun s hs hno => absurd (hall s hs) hno⟩
  | true =>
    cases u with
    | false =>
      have ht : (convertStep fs old temp final nr true false r lt).fsTrace
          = [fs, addFile fs temp, removeFile (addFile fs temp) temp] := rfl
      refine ⟨?_, fun s hs hno => rfl⟩
      intro _ s hs
      rw [ht] at hs
      simp only [List.mem_cons, List.not_mem_nil, or_false] at hs
      rcases hs with rfl | rfl | rfl
      · exact Or.inl hold
      · exact Or.inl (mem_addFile_of_mem _ hold)
      · exact Or.inl (mem_removeFile.mpr ⟨mem_addFile_of_mem _ hold, hne⟩)
    | true =>
      cases r with
      | false =>
        refine ⟨?_, fun s hs hno => rfl⟩
        intro hsucc
        exact absurd (hsucc rfl rfl) (by decide)
      | true =>
        have ht : (convertStep fs old temp final nr true true true lt).fsTrace
            = [fs, addFile fs temp, removeFile (addFile fs temp) old,
               addFile (removeFile (removeFile (addFile fs temp) old) temp) final] := rfl
        refine ⟨?_, fun s hs hno => rfl⟩
        intro _ s hs
        rw [ht] at hs
        simp only [List.mem_cons, List.not_mem_nil, or_false] at hs
        rcases hs with rfl | rfl | rfl | rfl
        · exact Or.inl hold
        · exact Or.inl (mem_addFile_of_mem _ hold)
        · exact Or.inr (Or.inl (mem_removeFile.mpr ⟨mem_addFile_self _ _, hne.symm⟩))
        · exact Or.inr (Or.inr (mem_addFile_self _ _))

/-- C1 witness: the amended safety property at the final state of a
concrete fully successful conversion. -/
theorem c1_amended_witness :
    (([] : List (List Char)), "b.mp3".toList)
      ∈ (convertStep [(([] : List (List Char)), "b.mp3".toList)]
          (([] : List (List Char)), "b.mp3".toList)
          (([] : List (List Char)), "_tmp_b.wav".toList)
          (([] : List (List Char)), "b.wav".toList) false true true true false).fs
    ∨ (([] : List (List Char)), "_tmp_b.wav".toList)
        ∈ (convertStep [(([] : List (List Char)), "b.mp3".toList)]
            (([] : List (List Char)), "b.mp3".toList)
            (([] : List (List Char)), "_tmp_b.wav".toList)
            (([] : List (List Char)), "b.wav".toList) false true true true false).fs
    ∨ (([] : List (List Char)), "b.wav".toList)
        ∈ (convertStep [(([] : List (List Char)), "b.mp3".toList)]
            (([] : List (List Char)), "b.mp3".toList)
            (([] : List (List Char)), "_tmp_b.wav".toList)
            (([] : List (List Char)), "b.wav".toList) false true true true false).fs :=
  (c1_amended [(([] : List (List Char)), "b.mp3".toList)]
      (([] : List (List Char)), "b.mp3".toList)
      (([] : List (List Char)), "_tmp_b.wav".toList)
      (([] : List (List Char)), "b.wav".toList) false true true true false
      (by decide) (by decide)).1 (fun _ _ => rfl)
    (convertStep [(([] : List (List Char)), "b.mp3".toList)]
      (([] : List (List Char)), "b.mp3".toList)
      (([] : List (List Char)), "_tmp_b.wav".toList)
      (([] : List (List Char)), "b.wav".toList) false true true true false).fs
    (by decide)

/-- Every iteration of the per-file loop appends exactly one `visited`
marker to the trace, whatever else it does. -/
theorem stepFile_countP_visit (orc : Oracles) (dry : Bool) (st : RunState) (f : FPath) :
    ((stepFile orc dry st f).events).countP isVisit
      = st.events.countP isVisit + 1 := by
  by_cases hf : f ∈ st.fs
  · cases hnr : needsRename f.2 <;>
      cases hnc : needsConversion (suffixOf f.2) (orc.probe f) <;>
        cases dry <;>
          simp [stepFile, hf, hnr, hnc, List.countP_append, List.countP_cons, isVisit]
  · simp [stepFile, hf, List.countP_append, List.countP_cons, isVisit]

/-- The loop gives every candidate its turn: the number of `visited`
markers grows by exactly the number of candidates, regardless of
per-file failures. -/
theorem runLoop_countP_visit (orc : Oracles) (dry : Bool) :
    ∀ (files : List FPath) (st : RunState),
      ((runLoop orc dry files st).events).countP isVisit
        = st.events.countP isVisit + files.length := by
  intro files
  induction files with
  | nil => intro st; rfl
  | cons f rest ih =>
    intro st
    show ((runLoop orc dry rest (stepFile orc dry st f)).events).countP isVisit = _
    rw [ih, stepFile_countP_visit]
    simp [List.length_cons]
    omega

/-- C4 counterexample: a post-conversion rename failure (encode
succeeded, delete-original succeeded, install-replacement raised) is
logged but leaves the `failed` counter at zero — the handler at lines
232–236 never increments it, contradicting "the file is counted in the
failed counter". -/
theorem c4_counterexample :
    (convertStep [(([] : List (List Char)), "c.mp3".toList)]
        (([] : List (List Char)), "c.mp3".toList)
        (([] : List (List Char)), "_tmp_c.wav".toList)
        (([] : List (List Char)), "c.wav".toList) true true true false false).dFailed = 0
    ∧ (convertStep [(([] : List (List Char)), "c.mp3".toList)]
        (([] : List (List Char)), "c.mp3".toList)
        (([] : List (List Char)), "_tmp_c.wav".toList)
        (([] : List (List Char)), "c.wav".toList) true true true false false).errLogged
        = true := by
  exact ⟨rfl, rfl⟩

/-- C4 amended: a rename-only failure is logged, counted failed, and
leaves the filesystem unchanged (lines 251–254); a post-conversion
failure (delete-original or install-replacement raising after a
successful encode) is logged and the run continues — every remaining
candidate still gets its loop turn — but such a failure is *not* counted
in the `failed` counter. -/
theorem c4_rename_failure :
    (∀ (fs : Fs) (old final : FPath),
      (renameStep fs old final false).dFailed = 1
      ∧ (renameStep fs old final false).errLogged = true
      ∧ (renameStep fs old final false).fs = fs)
    ∧ (∀ (fs : Fs) (old temp final : FPath) (nr u lt : Bool),
        (convertStep fs old temp final nr true u false lt).dFailed = 0
        ∧ (convertStep fs old temp final nr true u false lt).errLogged = true)
    ∧ (∀ (orc : Oracles) (dry : Bool) (files : List FPath) (st : RunState),
        ((runLoop orc dry files st).events).countP isVisit
          = st.events.countP isVisit + files.length) := by
  refine ⟨fun fs old final => ⟨rfl, rfl, rfl⟩, ?_, fun orc dry => runLoop_countP_visit orc dry⟩
  intro fs old temp final nr u lt
  cases u <;> exact ⟨rfl, rfl⟩

/-- A Phase-1 event is neither a visit nor a discovery. -/
theorem dirEvent_kinds {e : Event} (h : isDirEvent e = true) :
    isVisit e = false ∧ isDiscovery e = false := by
  cases e <;> simp_all [isDirEvent, isVisit, isDiscovery]

/-- One loop iteration appends only per-file events: no directory event,
no discovery marker. -/
theorem stepFile_events_spec (orc : Oracles) (dry : Bool) (st : RunState) (f : FPath) :
    ∃ tl, (stepFile orc dry st f).events = st.events ++ tl
      ∧ ∀ e ∈ tl, isDirEvent e = false ∧ isDiscovery e = false := by
  have kind1 : ∀ e ∈ [Event.visited f], isDirEvent e = false ∧ isDiscovery e = false := by
    intro e he
    simp only [List.mem_cons, List.not_mem_nil, or_false] at he
    subst he
    exact ⟨rfl, rfl⟩
  have kind2 : ∀ (a : List (List Char)) (e : Event),
      e ∈ [Event.visited f, Event.planned f a] →
      isDirEvent e = false ∧ isDiscovery e = false := by
    intro a e he
    simp only [List.mem_cons, List.not_mem_nil, or_false] at he
    rcases he with rfl | rfl <;> exact ⟨rfl, rfl⟩
  have kind3 : ∀ e ∈ [Event.visited f, Event.applied f],
      isDirEvent e = false ∧ isDiscovery e = false := by
    intro e he
    simp only [List.mem_cons, List.not_mem_nil, or_false] at he
    rcases he with rfl | rfl <;> exact ⟨rfl, rfl⟩
  by_cases hf : f ∈ st.fs
  · cases hnr : needsRename f.2 <;>
      cases hnc : needsConversion (suffixOf f.2) (orc.probe f) <;> cases dry
    · exact ⟨[Event.visited f], by simp [stepFile, hf, hnr, hnc], kind1⟩
    · exact ⟨[Event.visited f], by simp [stepFile, hf, hnr, hnc], kind1⟩
    · exact ⟨[Event.visited f, Event.applied f],
        by simp [stepFile, hf, hnr, hnc], kind3⟩
    · exact ⟨[Event.visited f, Event.planned f (previewActions false true)],
        by simp [stepFile, hf, hnr, hnc], kind2 _⟩
    · exact ⟨[Event.visited f, Event.applied f],
        by simp [stepFile, hf, hnr, hnc], kind3⟩
    · exact ⟨[Event.visited f, Event.planned f (previewActions true false)],
        by simp [stepFile, hf, hnr, hnc], kind2 _⟩
    · exact ⟨[Event.visited f, Event.applied f],
        by simp [stepFile, hf, hnr, hnc], kind3⟩
    · exact ⟨[Event.visited f, Event.planned f (previewActions true true)],
        by simp [stepFile, hf, hnr, hnc], kind2 _⟩
  · exact ⟨[Event.visited f], by simp [stepFile, hf], kind1⟩

/-- The whole loop appends only per-file events. -/
theorem runLoop_events_spec (orc : Oracles) (dry : Bool) :
    ∀ (files : List FPath) (st : RunState),
      ∃ tl, (runLoop orc dry files st).events = st.events ++ tl
        ∧ ∀ e ∈ tl, isDirEvent e = false ∧ isDiscovery e = false := by
  intro files
  induction files with
  | nil => exact fun st => ⟨[], by simp [runLoop], by simp⟩
  | cons f rest ih =>
    intro st
    obtain ⟨tl1, he1, hk1⟩ := stepFile_events_spec orc dry st f
    obtain ⟨tl2, he2, hk2⟩ := ih (stepFile orc dry st f)
    refine ⟨tl1 ++ tl2, ?_, ?_⟩
    · show (runLoop orc dry rest (stepFile orc dry st f)).events = _
      rw [he2, he1, List.append_assoc]
    · intro e he
      rcases List.mem_append.mp he with h | h
      · exact hk1 e h
      · exact hk2 e h

/-- One Phase-1 iteration appends only directory events. -/
theorem renameDirStep_events_spec (dk : List (List Char) → Bool) (dry : Bool)
    (st : DirState) (d : List (List Char)) :
    ∃ tl, (renameDirStep dk dry st d).events = st.events ++ tl
      ∧ ∀ e ∈ tl, isDirEvent e = true := by
  have kindR : ∀ (a b : List (List Char)) (e : Event),
      e ∈ [Event.dirRenamed a b] → isDirEvent e = true := by
    intro a b e he
    simp only [List.mem_cons, List.not_mem_nil, or_false] at he
    subst he
    rfl
  have kindE : ∀ (a : List (List Char)) (e : Event),
      e ∈ [Event.dirRenameError a] → isDirEvent e = true := by
    intro a e he
    simp only [List.mem_cons, List.not_mem_nil, or_false] at he
    subst he
    rfl
  unfold renameDirStep
  split
  · split
    · exact ⟨[], by simp, by simp⟩
    · split
      · exact ⟨[], by simp, by simp⟩
      · split
        · exact ⟨[Event.dirRenamed _ _], rfl, kindR _ _⟩
        · split
          · exact ⟨[Event.dirRenamed _ _], rfl, kindR _ _⟩
          · exact ⟨[Event.dirRenameError _], rfl, kindE _⟩
  · exact ⟨[], by simp, by simp⟩

/-- Phase 1 emits only directory events. -/
theorem renameDirectories_events_spec (dk : List (List Char) → Bool) (dry : Bool)
    (dirs0 : List (List (List Char))) (fs0 : Fs) :
    ∀ e ∈ (renameDirectories dk dry dirs0 fs0).events, isDirEvent e = true := by
  unfold renameDirectories
  have key : ∀ (ds : List (List (List Char))) (st : DirState),
      (∀ e ∈ st.events, isDirEvent e = true) →
      ∀ e ∈ (ds.foldl (renameDirStep dk dry) st).events, isDirEvent e = true := by
    intro ds
    induction ds with
    | nil => intro st h; exact h
    | cons d rest ih =>
      intro st h
      apply ih
      intro e he
      obtain ⟨tl, heq, htl⟩ := renameDirStep_events_spec dk dry st d
      rw [heq] at he
      rcases List.mem_append.mp he with h1 | h2
      · exact h e h1
      · exact htl e h2
  exact key _ _ (by simp)

/-- The run's trace decomposes as: directory events, then the discovery
marker carrying the complete candidate list of the post-Phase-1 tree,
then per-file events only. -/
theorem mainRun_events_decomp (orc : Oracles) (dry : Bool)
    (dirs0 : List (List (List Char))) (fs0 : Fs) :
    ∃ A B, (mainRun orc dry dirs0 fs0).events
        = A ++ Event.discovered
            (collectAudio (renameDirectories orc.dirOk dry dirs0 fs0).files) :: B
      ∧ (∀ e ∈ A, isDirEvent e = true)
      ∧ (∀ e ∈ B, isDirEvent e = false ∧ isDiscovery e = false) := by
  obtain ⟨tl, heq, htl⟩ := runLoop_events_spec orc dry
    (collectAudio (renameDirectories orc.dirOk dry dirs0 fs0).files)
    { fs := (renameDirectories orc.dirOk dry dirs0 fs0).files,
      renamed := 0, converted := 0, failed := 0, processed := 0,
      events := [.discovered
        (collectAudio (renameDirectories orc.dirOk dry dirs0 fs0).files)] }
  refine ⟨(renameDirectories orc.dirOk dry dirs0 fs0).events, tl, ?_,
    renameDirectories_events_spec orc.dirOk dry dirs0 fs0, htl⟩
  show (renameDirectories orc.dirOk dry dirs0 fs0).events
      ++ (processFiles orc dry (renameDirectories orc.dirOk dry dirs0 fs0).files).events
      = _
  unfold processFiles
  rw [heq]
  rfl

/-- C9: in every run the trace splits into all Phase-1 directory events
followed by all Phase-2 events (directory renaming completes before file
discovery starts); the only discovery marker carries exactly the
complete candidate list computed from the post-Phase-1 tree, and every
per-file loop turn comes strictly after it (the list is materialized in
full before the first transformation); and a candidate whose path no
longer exists at its turn is skipped — the loop continues on the rest
with nothing but a `visited` marker, no counter change, no error. -/
theorem c9_phase_ordering (orc : Oracles) (dry : Bool)
    (dirs0 : List (List (List Char))) (fs0 : Fs) :
    ((mainRun orc dry dirs0 fs0).events
      = ((mainRun orc dry dirs0 fs0).events.filter isDirEvent)
        ++ ((mainRun orc dry dirs0 fs0).events.filter (fun e => !isDirEvent e)))
    ∧ (∀ cs, Event.discovered cs ∈ (mainRun orc dry dirs0 fs0).events →
        cs = collectAudio (renameDirectories orc.dirOk dry dirs0 fs0).files)
    ∧ (∀ (i j : Nat) (e1 e2 : Event),
        ((mainRun orc dry dirs0 fs0).events)[i]? = some e1 →
        ((mainRun orc dry dirs0 fs0).events)[j]? = some e2 →
        isVisit e1 = true → isDiscovery e2 = true → j < i)
    ∧ (∀ (f : FPath) (rest : List FPath) (st : RunState), f ∉ st.fs →
        runLoop orc dry (f :: rest) st
          = runLoop orc dry rest { st with events := st.events ++ [Event.visited f] }) := by
  obtain ⟨A, B, heq, hA, hB⟩ := mainRun_events_decomp orc dry dirs0 fs0
  set cs0 := collectAudio (renameDirectories orc.dirOk dry dirs0 fs0).files with hcs0
  refine ⟨?_, ?_, ?_, ?_⟩
  · rw [heq]
    have h1 : (A ++ Event.discovered cs0 :: B).filter isDirEvent = A := by
      rw [List.filter_append, List.filter_eq_self.mpr hA]
      have hB2 : (Event.discovered cs0 :: B).filter isDirEvent = [] := by
        rw [List.filter_cons]
        have : isDirEvent (Event.discovered cs0) = false := rfl
        rw [this]
        simp only [Bool.false_eq_true, if_false]
        rw [List.filter_eq_nil_iff]
        intro e he
        simp [(hB e he).1]
      rw [hB2, List.append_nil]
    have h2 : (A ++ Event.discovered cs0 :: B).filter (fun e => !isDirEvent e)
        = Event.discovered cs0 :: B := by
      rw [List.filter_append]
      have hA2 : A.filter (fun e => !isDirEvent e) = [] := by
        rw [List.filter_eq_nil_iff]
        intro e he
        simp [hA e he]
      have hB2 : (Event.discovered cs0 :: B).filter (fun e => !isDirEvent e)
          = Event.discovered cs0 :: B := by
        rw [List.filter_eq_self]
        intro e he
        rcases List.mem_cons.mp he with rfl | h
        · rfl
        · simp [(hB e h).1]
      rw [hA2, hB2, List.nil_append]
    rw [h1, h2]
  · intro cs hm
    rw [heq] at hm
    rcases List.mem_append.mp hm with h | h
    · have := hA _ h
      simp [isDirEvent] at this
    · rcases List.mem_cons.mp h with h2 | h2
      · injection h2.symm with h3
        exact h3.symm
      · have := (hB _ h2).2
        simp [isDiscovery] at this
  · intro i j e1 e2 hi hj hv hd
    rw [heq] at hi hj
    have hiA : ¬ i < A.length := by
      intro hlt
      rw [List.getElem?_append_left hlt] at hi
      have := hA e1 (List.getElem?_mem hi)
      rcases dirEvent_kinds this with ⟨hv2, _⟩
      rw [hv] at hv2
      cases hv2
    have hine : i ≠ A.length := by
      intro hieq
      rw [List.getElem?_append_right (Nat.le_of_eq hieq.symm)] at hi
      rw [hieq, Nat.sub_self] at hi
      have he1 : e1 = Event.discovered cs0 := by
        have : (Event.discovered cs0 :: B)[0]? = some (Event.discovered cs0) := by simp
        rw [this] at hi
        injection hi with h
        exact h.symm
      rw [he1] at hv
      cases hv
    have hjA : ¬ j < A.length := by
      intro hlt
      rw [List.getElem?_append_left hlt] at hj
      have := hA e2 (List.getElem?_mem hj)
      rcases dirEvent_kinds this with ⟨_, hd2⟩
      rw [hd] at hd2
      cases hd2
    have hjB : ¬ A.length < j := by
      intro hlt
      rw [List.getElem?_append_right (Nat.le_of_lt hlt)] at hj
      have hpos : 0 < j - A.length := by omega
      have hcons : (Event.discovered cs0 :: B)[j - A.length]? = B[j - A.length - 1]? := by
        cases hje : j - A.length with
        | zero => omega
        | succ k => simp
      rw [hcons] at hj
      have := (hB e2 (List.getElem?_mem hj)).2
      rw [hd] at this
      cases this
    omega
  · intro f rest st h
    show List.foldl (stepFile orc dry) st (f :: rest) = _
    rw [List.foldl_cons]
    have hstep : stepFile orc dry st f
        = { st with events := st.events ++ [Event.visited f] } := by
      unfold stepFile
      rw [if_neg h]
    rw [hstep]
    rfl

/-- C9 witness: skipping a vanished candidate on a concrete loop state. -/
theorem c9_phase_ordering_witness :
    runLoop
      ⟨fun _ => ProbeResult.exc, fun _ => true, fun _ => true, fun _ => true,
        fun _ => false, fun _ => true⟩ false
      [(([] : List (List Char)), "x.wav".toList)]
      ⟨[], 0, 0, 0, 0, []⟩
    = runLoop
        ⟨fun _ => ProbeResult.exc, fun _ => true, fun _ => true, fun _ => true,
          fun _ => false, fun _ => true⟩ false
        []
        ⟨[], 0, 0, 0, 0, [Event.visited (([] : List (List Char)), "x.wav".toList)]⟩ :=
  (c9_phase_ordering
      ⟨fun _ => ProbeResult.exc, fun _ => true, fun _ => true, fun _ => true,
        fun _ => false, fun _ => true⟩ false [] []).2.2.2
    (([] : List (List Char)), "x.wav".toList) [] ⟨[], 0, 0, 0, 0, []⟩
    (by simp)

end AudioProc
